import Mathlib

/-!
Verification of the `rp` line-oriented stream replacer.

Shallow embedding of the repository's three modules:
* `src/replace.rs` — the `Pattern` trait with its literal (`&[u8]`) and regex
  implementations, the `Replacer` struct and `replace_stream`;
* `src/unescape.rs` — the backslash escape-sequence decoder;
* `src/main.rs` — the stdout / in-place batch drivers, modelled as pure
  state transformers over an explicit file-system state.

Bytes are modelled as `Nat` (all byte values the code manipulates fit in
`u8`/`u32` without overflow; where a width matters it is noted at the
definition).  Byte strings are `List Nat`.
-/

namespace Rp

/-! ## memchr::memmem model

`memchr::memmem::find_iter(haystack, needle)` yields the starting offsets of
the leftmost non-overlapping occurrences of `needle` in `haystack`.  Per the
memchr crate's documented semantics, an empty needle matches at every
position, including one past the end of the haystack, and the iterator
advances by one after each empty match (and by `needle.len()` otherwise).
-/

/-- One search step: does `pat` occur at offset `i` of `text`?  Matches only
when the whole pattern fits. -/
def matchAt (text pat : List Nat) (i : Nat) : Bool :=
  i + pat.length ≤ text.length && pat.isPrefixOf (text.drop i)

/-- Fuelled scan of `text` from offset `i` collecting non-overlapping match
offsets.  After a match the scan advances by `max pat.length 1` (the extra
`1` is the forced progress on an empty needle), otherwise by `1`. -/
def findIterFrom (text pat : List Nat) : Nat → Nat → List Nat
  | _, 0 => []
  | i, fuel + 1 =>
    if i + pat.length ≤ text.length then
      if pat.isPrefixOf (text.drop i) then
        i :: findIterFrom text pat (i + max pat.length 1) fuel
      else
        findIterFrom text pat (i + 1) fuel
    else []

/-- Model of `memchr::memmem::find_iter(text, pat)` as a list of match
offsets.  `text.length + 1` fuel suffices: the scan offset strictly
increases and the scan stops beyond `text.length`. -/
def find_iter (text pat : List Nat) : List Nat :=
  findIterFrom text pat 0 (text.length + 1)

/-! ## `impl Pattern for &[u8]` (literal variant) and the regex paths -/

/-- The shared splice loop of the three `replace_into` implementations,
specialised to the literal case where a match at `start` spans
`start .. start + plen`.  State: `buf` (output accumulator), `last`
(end of the previous match), `count`.  Mirrors

    for start in memchr::memmem::find_iter(text, &self) {
        count += 1;
        buf.extend_from_slice(&text[last..start]);
        buf.extend_from_slice(rep);
        last = start + self.len();
        if !all { break; }
    }
    buf.extend_from_slice(&text[last..]);
-/
def replace_loop (plen : Nat) (text rep : List Nat) (all : Bool) :
    List Nat → List Nat → Nat → Nat → List Nat × Nat
  | [], buf, last, count => (buf ++ text.drop last, count)
  | start :: ms, buf, last, count =>
    let buf' := buf ++ (text.drop last).take (start - last) ++ rep
    if all then
      replace_loop plen text rep all ms buf' (start + plen) (count + 1)
    else
      (buf' ++ text.drop (start + plen), count + 1)

/-- Model of `<&[u8] as Pattern>::replace_into(self = pat, buf, text, rep, all)`. -/
def literal_replace_into (pat buf text rep : List Nat) (all : Bool) :
    List Nat × Nat :=
  replace_loop pat.length text rep all (find_iter text pat) buf 0 0

/-- The regex fast-path loop over plain matches `(start, end)`; splices the
literal replacement bytes.  Mirrors the `no_expansion` branch of
`<Regex as Pattern>::replace_into`. -/
def fast_loop (text rep : List Nat) (all : Bool) :
    List (Nat × Nat) → List Nat → Nat → Nat → List Nat × Nat
  | [], buf, last, count => (buf ++ text.drop last, count)
  | (s, e) :: ms, buf, last, count =>
    let buf' := buf ++ (text.drop last).take (s - last) ++ rep
    if all then
      fast_loop text rep all ms buf' e (count + 1)
    else
      (buf' ++ text.drop e, count + 1)

/-- Regex fast path: `find_iter` matches with literal splice.  The leading
`peek`-emptiness test of the Rust code is the `[]` case. -/
def regex_replace_fast (ms : List (Nat × Nat)) (buf text rep : List Nat)
    (all : Bool) : List Nat × Nat :=
  match ms with
  | [] => (buf ++ text, 0)
  | _ :: _ => fast_loop text rep all ms buf 0 0

/-- The regex capture-path loop.  Each element carries the whole-match span
`cap.get(0)` together with the bytes `rep.replace_append(&cap, ..)` appends
for that capture (the template's expansion under the capture). -/
def cap_loop (text : List Nat) (all : Bool) :
    List ((Nat × Nat) × List Nat) → List Nat → Nat → Nat → List Nat × Nat
  | [], buf, last, count => (buf ++ text.drop last, count)
  | ((s, e), exp) :: ms, buf, last, count =>
    let buf' := buf ++ (text.drop last).take (s - last) ++ exp
    if all then
      cap_loop text all ms buf' e (count + 1)
    else
      (buf' ++ text.drop e, count + 1)

/-- Regex capture-expansion path over `captures_iter`. -/
def regex_replace_cap (caps : List ((Nat × Nat) × List Nat))
    (buf text : List Nat) (all : Bool) : List Nat × Nat :=
  match caps with
  | [] => (buf ++ text, 0)
  | _ :: _ => cap_loop text all caps buf 0 0

/-- Model of `bytes::Replacer::no_expansion` for a `&[u8]` replacement: the
replacement has no expansion exactly when it contains no `$` (byte 36). -/
def no_expansion (rep : List Nat) : Option (List Nat) :=
  if rep.contains 36 then none else some rep

/-- Abstract model of a compiled `regex::bytes::Regex`.  Only its match
enumeration is visible to the code under verification: `find_all text` is
the span list produced by `find_iter`, and `captures_all text` the capture
list produced by `captures_iter`, each capture paired with the expansion
function `rep ↦ bytes appended by rep.replace_append(&cap, ..)`. -/
structure Regex where
  find_all : List Nat → List (Nat × Nat)
  captures_all : List Nat → List ((Nat × Nat) × (List Nat → List Nat))

/-- The `Pattern` trait: `replace_into(&self, buf, text, rep, all)`. -/
class Pattern (P : Type) where
  replace_into : P → List Nat → List Nat → List Nat → Bool → List Nat × Nat

/-- The `impl Pattern for &[u8]` instance. -/
instance listPattern : Pattern (List Nat) where
  replace_into pat buf text rep all := literal_replace_into pat buf text rep all

/-- Model of `<Regex as Pattern>::replace_into`: take the fast path when the
replacement needs no expansion, otherwise the capture path. -/
def regex_replace_into (re : Regex) (buf text rep : List Nat) (all : Bool) :
    List Nat × Nat :=
  match no_expansion rep with
  | some r => regex_replace_fast (re.find_all text) buf text r all
  | none =>
    regex_replace_cap
      ((re.captures_all text).map fun c => (c.1, c.2 rep)) buf text all

/-- The `impl Pattern for Regex` instance. -/
instance regexPattern : Pattern Regex where
  replace_into := regex_replace_into

/-! ## `Replacer` -/

/-- The `struct Replacer<P>` of `replace.rs`. -/
structure Replacer (P : Type) where
  pattern : P
  replacement : List Nat
  replace_all : Bool
  print_only_matches : Bool
deriving DecidableEq

/-- Constructor `Replacer::literal(pattern, replacement)`: both flags start `false`. -/
def Replacer.literal (pattern replacement : List Nat) : Replacer (List Nat) :=
  { pattern := pattern, replacement := replacement,
    replace_all := false, print_only_matches := false }

/-- Constructor `Replacer::regex(re, replacement)`: regex compilation
(`RegexBuilder::new(re).multi_line(true).build()?`) is external; its outcome
is passed in as an `Except` and the `?` is the `map`. -/
def Replacer.regex (built : Except String Regex) (replacement : List Nat) :
    Except String (Replacer Regex) :=
  built.map fun p =>
    { pattern := p, replacement := replacement,
      replace_all := false, print_only_matches := false }

/-- Constructor `Replacer::new(pattern, replacement)`. -/
def Replacer.new {P : Type} (pattern : P) (replacement : List Nat) :
    Replacer P :=
  { pattern := pattern, replacement := replacement,
    replace_all := false, print_only_matches := false }

/-- Builder `Replacer::replace_all(self, replace_all)` (named `set_` here
because the Lean field projection already uses the Rust method's name). -/
def Replacer.set_replace_all {P : Type} (r : Replacer P) (b : Bool) :
    Replacer P :=
  { r with replace_all := b }

/-- Builder `Replacer::print_only_matches(self, print_only_matches)`. -/
def Replacer.set_print_only_matches {P : Type} (r : Replacer P) (b : Bool) :
    Replacer P :=
  { r with print_only_matches := b }

/-! ## `Replacer::replace_stream` -/

/-- Model of `BufRead::read_until(b'\n', buf)` on a pure byte stream: returns
the consumed line unit (up to and including the first newline, or the whole
remainder) and the rest of the stream. -/
def read_until_nl (input : List Nat) : List Nat × List Nat :=
  match input.findIdx? (fun b => b == 10) with
  | some i => (input.take (i + 1), input.drop (i + 1))
  | none => (input, [])

/-- Model of `Replacer::replace_stream` on a pure input stream (the error-free
run): read one line unit at a time, stop when a read yields zero bytes;
per line, replace into a scratch buffer cleared at the start of the line
(`[]` here), and write it unless `print_only_matches` is set and the
match count is zero. -/
def replace_stream {P : Type} [Pattern P] (r : Replacer P)
    (input : List Nat) : List Nat :=
  if h : input = [] then []
  else
    let step := read_until_nl input
    let res := Pattern.replace_into r.pattern [] step.1 r.replacement
        r.replace_all
    (if !r.print_only_matches || res.2 != 0 then res.1 else []) ++
      replace_stream r step.2
termination_by input.length
decreasing_by
  have hlen : input.length ≠ 0 := fun hl => h (List.length_eq_zero.mp hl)
  cases h' : input.findIdx? (fun b => b == 10) with
  | none => simp only [read_until_nl, h']; simpa using Nat.pos_of_ne_zero hlen
  | some i => simp only [read_until_nl, h', List.length_drop]; omega

/-- The stream's decomposition into line units (each up to and including its
newline; the final unit possibly without one), in input order. -/
def lineUnits (input : List Nat) : List (List Nat) :=
  if h : input = [] then []
  else
    let step := read_until_nl input
    step.1 :: lineUnits step.2
termination_by input.length
decreasing_by
  have hlen : input.length ≠ 0 := fun hl => h (List.length_eq_zero.mp hl)
  cases h' : input.findIdx? (fun b => b == 10) with
  | none => simp only [read_until_nl, h']; simpa using Nat.pos_of_ne_zero hlen
  | some i => simp only [read_until_nl, h', List.length_drop]; omega

/-! ## `unescape.rs` — the escape-sequence decoder -/

/-- The `unescape::ErrorKind` enum. -/
inductive ErrorKind where
  | MissingEscape
  | InvalidEscape (c : Nat)
  | TruncatedHex
  | InvalidHexDigit (c : Nat)
  | TruncatedUnicode
  | InvalidUnicodeCodepoint (v : Nat)
deriving DecidableEq

/-- The `unescape::Error` type: an error kind together with the byte offset of the
backslash that began the offending sequence. -/
structure UnescapeError where
  pos : Nat
  kind : ErrorKind
deriving DecidableEq

/-- Model of `memchr::memchr(needle, haystack)`: offset of the first occurrence of
the byte. -/
def memchr (needle : Nat) (haystack : List Nat) : Option Nat :=
  haystack.findIdx? (fun b => b == needle)

/-- Model of `unescape::nibble`: parse a single hex digit from an ASCII byte
(`b'0'..=b'9'`, `b'a'..=b'f'`, `b'A'..=b'F'`). -/
def nibble (b : Nat) : Except ErrorKind Nat :=
  if 48 ≤ b ∧ b ≤ 57 then .ok (b - 48)
  else if 97 ≤ b ∧ b ≤ 102 then .ok (b - 97 + 10)
  else if 65 ≤ b ∧ b ≤ 70 then .ok (b - 65 + 10)
  else .error (.InvalidHexDigit b)

/-- Model of `unescape::parse_hex`: exactly two hex digits from the start of `bytes`;
the first missing byte or invalid digit is the error, in scan order.
`(hi <<< 4) ||| lo` is exact `u8` arithmetic (both nibbles are `< 16`). -/
def parse_hex (bytes : List Nat) : Except ErrorKind Nat := do
  let hi ← match bytes.get? 0 with
    | none => Except.error ErrorKind.TruncatedHex
    | some b => nibble b
  let lo ← match bytes.get? 1 with
    | none => Except.error ErrorKind.TruncatedHex
    | some b => nibble b
  return (hi <<< 4) ||| lo

/-- Model of `unescape::parse_unicode`: a `{`, up to six hex digits, `}` — the closing
brace must appear within the first 8 bytes.  Returns the accumulated value
and the number of input bytes consumed (digits plus the two braces).  The
accumulator is exact `u32` arithmetic: at most 6 digits, so the value stays
below `16^6 = 2^24`. -/
def parse_unicode (bytes : List Nat) : Except ErrorKind (Nat × Nat) := do
  -- we always must have at least 3 bytes of input: braces and a digit
  if bytes.length < 3 then
    throw .TruncatedUnicode
  -- must start with '{'
  if bytes.get? 0 ≠ some 123 then
    throw .TruncatedUnicode
  -- must find a '}' within 8 bytes
  let stop ← match (bytes.take 8).findIdx? (fun b => b == 125) with
    | none => Except.error ErrorKind.TruncatedUnicode
    | some e => pure e
  let digits := (bytes.take stop).drop 1
  let val ← digits.foldlM (fun v d => do
    let n ← nibble d
    pure ((v <<< 4) ||| n)) 0
  return (val, digits.length + 2)

/-- Success predicate of `char::try_from(u32)`: exactly the Unicode scalar values, below
the surrogate range `0xD800..=0xDFFF` or between it and `0x10FFFF`. -/
def isUnicodeScalar (v : Nat) : Bool :=
  decide (v < 0xD800 ∨ (0xDFFF < v ∧ v ≤ 0x10FFFF))

/-- Model of `char::encode_utf8`: standard UTF-8 encoding of a scalar value. -/
def encodeUTF8 (c : Nat) : List Nat :=
  if c < 0x80 then [c]
  else if c < 0x800 then
    [0xC0 ||| (c >>> 6), 0x80 ||| (c &&& 0x3F)]
  else if c < 0x10000 then
    [0xE0 ||| (c >>> 12), 0x80 ||| ((c >>> 6) &&& 0x3F), 0x80 ||| (c &&& 0x3F)]
  else
    [0xF0 ||| (c >>> 18), 0x80 ||| ((c >>> 12) &&& 0x3F),
      0x80 ||| ((c >>> 6) &&& 0x3F), 0x80 ||| (c &&& 0x3F)]

/-- Whether `nibble` accepts the byte: an ASCII hex digit. -/
def isHexDigitB (b : Nat) : Bool :=
  (48 ≤ b && b ≤ 57) || (97 ≤ b && b ≤ 102) || (65 ≤ b && b ≤ 70)

/-- The value `nibble` returns on a hex digit (0 on other bytes). -/
def nibbleVal (b : Nat) : Nat :=
  if 48 ≤ b ∧ b ≤ 57 then b - 48
  else if 97 ≤ b ∧ b ≤ 102 then b - 97 + 10
  else if 65 ≤ b ∧ b ≤ 70 then b - 65 + 10
  else 0

/-- The value `parse_unicode`'s accumulation loop computes over a digit
byte list. -/
def valOf (ds : List Nat) : Nat :=
  ds.foldl (fun v d => (v <<< 4) ||| nibbleVal d) 0

/-- Lower-case ASCII hex digit byte for a value below 16. -/
def hexByte (d : Nat) : Nat :=
  if d < 10 then 48 + d else 87 + d

/-- Canonical (shortest, most-significant-first) hex digit bytes of `v`. -/
def hexBytesOf (v : Nat) : List Nat :=
  if v = 0 then [48] else (Nat.digits 16 v).reverse.map hexByte

/-- The `match esc` arm dispatch of `unescape_bytes_`: given the byte after
the backslash and the input following it, returns the bytes pushed to `out`
and how many extra input bytes beyond the two of `\e` were consumed
(`pos += …` in the source), or the error kind (reported at the backslash's
offset by the caller). -/
def dispatch_escape (esc : Nat) (after : List Nat) :
    Except ErrorKind (List Nat × Nat) :=
  if esc = 48 then .ok ([0], 0)
  else if esc = 92 then .ok ([92], 0)
  else if esc = 110 then .ok ([10], 0)
  else if esc = 114 then .ok ([13], 0)
  else if esc = 116 then .ok ([9], 0)
  else if esc = 120 then
    (parse_hex after).map fun b => ([b], 2)
  else if esc = 117 then
    match parse_unicode after with
    | .error e => .error e
    | .ok (v, count) =>
      if isUnicodeScalar v then .ok (encodeUTF8 v, count)
      else .error (.InvalidUnicodeCodepoint v)
  else .error (.InvalidEscape esc)

/-- The loop of `unescape::unescape_bytes_`.  Each iteration finds the next
backslash (`memchr`), copies the bytes before it, dispatches on the escape
byte, and continues after the consumed input (`last = pos + 2`, with `pos`
already advanced by the extra bytes a hex or Unicode escape consumed);
`base` is the absolute offset of the start of `bytes` in the original
template, so `base + i` is the reported error position (the backslash's
offset). -/
def unescape_go (bytes : List Nat) (base : Nat) :
    Except UnescapeError (List Nat) :=
  match hm : memchr 92 bytes with
  | none => .ok bytes
  | some i =>
    match bytes.get? (i + 1) with
    | none => .error ⟨base + i, .MissingEscape⟩
    | some esc =>
      match dispatch_escape esc (bytes.drop (i + 2)) with
      | .error e => .error ⟨base + i, e⟩
      | .ok (push, extra) =>
        (unescape_go (bytes.drop (i + 2 + extra)) (base + i + 2 + extra)).map
          fun t => bytes.take i ++ push ++ t
termination_by bytes.length
decreasing_by
  have hi : i < bytes.length := by
    have := List.findIdx?_eq_some_iff_findIdx_eq.mp hm
    exact this.1
  simp only [List.length_drop]
  omega

/-- Model of `unescape::unescape_bytes`. -/
def unescape_bytes (bytes : List Nat) : Except UnescapeError (List Nat) :=
  unescape_go bytes 0

/-! ## `main.rs` — batch drivers and the in-place committer -/

/-- Observable per-target events of a batch run: `attempt i` marks that
processing of target `i` began, `report i` that an error was printed for
target `i` while the run continued. -/
inductive Event where
  | attempt (i : Nat)
  | report (i : Nat)
deriving DecidableEq

/-- How a batch run ends when it does not succeed. -/
inductive RunError where
  /-- `File::open` context error propagated with `?` from
  `do_replace_stdout`. -/
  | openError (i : Nat)
  /-- the final `failed processing one or more files`. -/
  | someFailed
  /-- a `replace_one_inplace` error propagated with `?` from
  `do_replace_inplace`. -/
  | inplaceError (i : Nat)
deriving DecidableEq

/-- A stdout-mode target, abstracted to its two possible I/O failures:
`File::open` failing, or `replace_stream` failing mid-stream. -/
structure StdoutFile where
  openFails : Bool
  streamFails : Bool
deriving DecidableEq

/-- The loop of `do_replace_stdout`, threading the running index and the
`failed` flag: an open failure propagates immediately (`?`), a stream error
is printed (`report`) and the loop continues with `failed = true`; at the
end, `failed` decides the overall result. -/
def do_replace_stdout_go : Nat → Bool → List StdoutFile →
    List Event × Except RunError Unit
  | _, failed, [] => ([], if failed then .error .someFailed else .ok ())
  | i, failed, f :: fs =>
    if f.openFails then ([.attempt i], .error (.openError i))
    else if f.streamFails then
      let rest := do_replace_stdout_go (i + 1) true fs
      (.attempt i :: .report i :: rest.1, rest.2)
    else
      let rest := do_replace_stdout_go (i + 1) failed fs
      (.attempt i :: rest.1, rest.2)

/-- Model of `do_replace_stdout(replacer, files)`. -/
def do_replace_stdout (files : List StdoutFile) :
    List Event × Except RunError Unit :=
  do_replace_stdout_go 0 false files

/-- An in-place target, abstracted to its original file content and
permission bits plus a failure switch for each fallible step of
`replace_one_inplace`, in execution order. -/
structure InplaceEnv where
  origContent : List Nat
  origPerms : Nat
  openFails : Bool
  metaFails : Bool
  tempFails : Bool
  streamFails : Bool
  flushFails : Bool
  renameFails : Bool
  permFails : Bool
deriving DecidableEq

/-- The observable file-system state at the target path: the path's content
and permission bits, and whether the temporary file still exists. -/
structure FileState where
  content : List Nat
  perms : Nat
  tempExists : Bool
deriving DecidableEq

/-- Which step of `replace_one_inplace` failed. -/
inductive InplaceError where
  | openError | metaError | tempError | streamError | flushError
  | renameError | permError
deriving DecidableEq

/-- Model of `replace_one_inplace(replacer, path)` as a transformer of the target's
file-system state.  `transform` is the stream replacement applied to the
whole content (`replace_stream` into the temp file); `tempPerms` is the
default permission bits a fresh temporary file gets.  Step order follows the
source: open, metadata, temp-file creation, stream replacement, flush
(`into_inner`), atomic rename (`persist`), `set_permissions`.  A dropped
`NamedTempFile` (every failure path after its creation) deletes the
temporary file. -/
def replace_one_inplace (transform : List Nat → List Nat) (tempPerms : Nat)
    (e : InplaceEnv) : FileState × Except InplaceError Unit :=
  let s0 : FileState := ⟨e.origContent, e.origPerms, false⟩
  if e.openFails then (s0, .error .openError)
  else if e.metaFails then (s0, .error .metaError)
  else if e.tempFails then (s0, .error .tempError)
  else
    -- the temporary file now exists next to the target
    let s1 : FileState := { s0 with tempExists := true }
    if e.streamFails then ({ s1 with tempExists := false }, .error .streamError)
    else if e.flushFails then
      ({ s1 with tempExists := false }, .error .flushError)
    else if e.renameFails then
      ({ s1 with tempExists := false }, .error .renameError)
    else
      -- `persist` atomically renamed the temp file over the target: the
      -- target now has the transformed content with the temp file's
      -- default permissions
      let s2 : FileState := ⟨transform e.origContent, tempPerms, false⟩
      if e.permFails then (s2, .error .permError)
      else ({ s2 with perms := e.origPerms }, .ok ())

/-- The loop of `do_replace_inplace`: each target's `replace_one_inplace`
error is propagated immediately with `?` (attributed to that target via
`with_context`). -/
def do_replace_inplace_go (transform : List Nat → List Nat)
    (tempPerms : Nat) : Nat → List InplaceEnv →
    List Event × Except RunError Unit
  | _, [] => ([], .ok ())
  | i, e :: es =>
    match (replace_one_inplace transform tempPerms e).2 with
    | .error _ => ([.attempt i], .error (.inplaceError i))
    | .ok () =>
      let rest := do_replace_inplace_go transform tempPerms (i + 1) es
      (.attempt i :: rest.1, rest.2)

/-- Model of `do_replace_inplace(replacer, files)`. -/
def do_replace_inplace (transform : List Nat → List Nat) (tempPerms : Nat)
    (files : List InplaceEnv) : List Event × Except RunError Unit :=
  do_replace_inplace_go transform tempPerms 0 files

/-- ASCII byte list of a string literal (used only to state concrete test
vectors readably). -/
def strBytes (s : String) : List Nat :=
  s.data.map Char.toNat

/-! ## Stream-reading lemmas -/

theorem read_until_nl_fst_append_snd (input : List Nat) :
    (read_until_nl input).1 ++ (read_until_nl input).2 = input := by
  unfold read_until_nl
  cases h : input.findIdx? (fun b => b == 10) <;> simp

/-- In the pure stream model, a read yields zero bytes exactly when the
stream is exhausted. -/
theorem read_until_nl_fst_eq_nil_iff (input : List Nat) :
    (read_until_nl input).1 = [] ↔ input = [] := by
  cases h' : input.findIdx? (fun b => b == 10) with
  | none => simp [read_until_nl, h']
  | some i =>
    have hlen : input.length ≠ 0 := by
      intro hl
      rw [List.length_eq_zero.mp hl] at h'
      simp at h'
    simp only [read_until_nl, h', List.take_eq_nil_iff]
    constructor
    · rintro (h | rfl)
      · omega
      · rfl
    · intro h
      exact absurd (congrArg List.length h) (by simpa using hlen)

/-! ## Splice-loop lemmas: the output accumulator is only appended to -/

theorem replace_loop_buf (plen : Nat) (text rep : List Nat) (all : Bool) :
    ∀ (ms : List Nat) (buf : List Nat) (last count : Nat),
      (replace_loop plen text rep all ms buf last count).1 =
        buf ++ (replace_loop plen text rep all ms [] last count).1 := by
  intro ms
  induction ms with
  | nil => intro buf last count; simp [replace_loop]
  | cons s ms ih =>
    intro buf last count
    simp only [replace_loop]
    cases all with
    | false => simp [List.append_assoc]
    | true =>
      rw [if_pos rfl, if_pos rfl, ih]
      simp only [List.nil_append]
      rw [ih ((text.drop last).take (s - last) ++ rep)]
      simp [List.append_assoc]

theorem fast_loop_buf (text rep : List Nat) (all : Bool) :
    ∀ (ms : List (Nat × Nat)) (buf : List Nat) (last count : Nat),
      (fast_loop text rep all ms buf last count).1 =
        buf ++ (fast_loop text rep all ms [] last count).1 := by
  intro ms
  induction ms with
  | nil => intro buf last count; simp [fast_loop]
  | cons m ms ih =>
    intro buf last count
    obtain ⟨s, e⟩ := m
    simp only [fast_loop]
    cases all with
    | false => simp [List.append_assoc]
    | true =>
      rw [if_pos rfl, if_pos rfl, ih]
      simp only [List.nil_append]
      rw [ih ((text.drop last).take (s - last) ++ rep)]
      simp [List.append_assoc]

theorem cap_loop_buf (text : List Nat) (all : Bool) :
    ∀ (caps : List ((Nat × Nat) × List Nat)) (buf : List Nat) (last count : Nat),
      (cap_loop text all caps buf last count).1 =
        buf ++ (cap_loop text all caps [] last count).1 := by
  intro caps
  induction caps with
  | nil => intro buf last count; simp [cap_loop]
  | cons c caps ih =>
    intro buf last count
    obtain ⟨⟨s, e⟩, exp⟩ := c
    simp only [cap_loop]
    cases all with
    | false => simp [List.append_assoc]
    | true =>
      rw [if_pos rfl, if_pos rfl, ih]
      simp only [List.nil_append]
      rw [ih ((text.drop last).take (s - last) ++ exp)]
      simp [List.append_assoc]

/-! ## `find_iter` lemmas -/

/-- A non-empty pattern never matches in the empty haystack. -/
theorem find_iter_nil (pat : List Nat) (h : pat ≠ []) :
    find_iter [] pat = [] := by
  have : pat.length ≠ 0 := fun hl => h (List.length_eq_zero.mp hl)
  simp only [find_iter, findIterFrom, List.length_nil]
  rw [if_neg (by omega)]

theorem findIterFrom_past_end (text : List Nat) :
    ∀ (fuel i : Nat), text.length < i → findIterFrom text [] i fuel = [] := by
  intro fuel
  cases fuel with
  | zero => intro i _; rfl
  | succ fuel =>
    intro i h
    simp only [findIterFrom, List.length_nil]
    rw [if_neg (by omega)]

theorem findIterFrom_empty_pat (text : List Nat) :
    ∀ (fuel i : Nat), text.length + 1 - i ≤ fuel → i ≤ text.length →
      findIterFrom text [] i fuel = List.range' i (text.length + 1 - i) := by
  intro fuel
  induction fuel with
  | zero => intro i h1 h2; omega
  | succ fuel ih =>
    intro i h1 h2
    have tail_eq : findIterFrom text [] (i + 1) fuel =
        List.range' (i + 1) (text.length - i) := by
      rcases Nat.lt_or_ge i text.length with hlt | hge
      · have := ih (i + 1) (by omega) (by omega)
        rwa [show text.length + 1 - (i + 1) = text.length - i from by omega]
          at this
      · have : text.length - i = 0 := by omega
        rw [this, findIterFrom_past_end text fuel (i + 1) (by omega)]
        rfl
    simp only [findIterFrom, List.length_nil, Nat.add_zero]
    rw [if_pos h2, if_pos (by simp [List.isPrefixOf])]
    have hn : text.length + 1 - i = (text.length - i) + 1 := by omega
    rw [hn, List.range'_succ]
    simp [tail_eq]

/-- Per the memchr semantics, the empty needle matches at every offset of
the haystack, including one past the end. -/
theorem find_iter_empty_pat (text : List Nat) :
    find_iter text [] = List.range (text.length + 1) := by
  rw [find_iter, findIterFrom_empty_pat text (text.length + 1) 0 (by omega) (by omega),
    List.range_eq_range']
  simp

/-- The splice loop over the empty pattern's matches `i+1, i+2, ...` with
`last = i`: each match contributes one input byte followed by the
replacement. -/
theorem replace_loop_empty_pat (text rep : List Nat) :
    ∀ (k i : Nat) (buf : List Nat) (count : Nat), i + k = text.length →
      replace_loop 0 text rep true (List.range' (i + 1) k) buf i count =
        (buf ++ ((text.drop i).map fun b => b :: rep).flatten, count + k) := by
  intro k
  induction k with
  | zero =>
    intro i buf count h
    have : i = text.length := by omega
    subst this
    simp [replace_loop, List.drop_length]
  | succ k ih =>
    intro i buf count h
    have hi : i < text.length := by omega
    rw [List.range'_succ]
    simp only [replace_loop, Nat.add_zero, if_true]
    rw [ih (i + 1) _ (count + 1) (by omega)]
    rw [List.drop_eq_getElem_cons hi]
    simp only [show i + 1 - i = 1 from by omega, List.take_succ_cons,
      List.take_zero, List.map_cons, List.flatten_cons, Prod.mk.injEq]
    constructor
    · simp [List.append_assoc]
    · omega

/-! ## Claim C1 -/

/-- C1 (counterexample): the claim "an empty literal pattern never matches —
`replace_into` returns 0 and copies the line unchanged" is false at input
line `[97]`, replacement `[88]`, `replace_all = false`: the code returns
`([88, 97], 1)`, not `([97], 0)`. -/
theorem literal_empty_pattern_claim_false :
    literal_replace_into [] [] [97] [88] false ≠ ([97], 0) := by
  decide

/-- C1 (amended): a zero-length literal pattern matches at every byte offset
of the line, including one past the end (memmem's documented empty-needle
semantics).  With `replace_all = false`, `replace_into` returns count 1 and
appends the replacement followed by the unchanged line; with
`replace_all = true` it returns count `line.length + 1` and splices the
replacement at every byte boundary.  It never reports zero matches. -/
theorem literal_empty_pattern_matches_everywhere (buf text rep : List Nat) :
    find_iter text [] = List.range (text.length + 1) ∧
    literal_replace_into [] buf text rep false = (buf ++ rep ++ text, 1) ∧
    literal_replace_into [] buf text rep true =
      (buf ++ rep ++ (text.map fun b => b :: rep).flatten, text.length + 1) := by
  refine ⟨find_iter_empty_pat text, ?_, ?_⟩
  · rw [literal_replace_into, find_iter_empty_pat text, List.range_eq_range',
      List.range'_succ]
    simp [replace_loop]
  · have key := replace_loop_empty_pat text rep text.length 0 (buf ++ rep) 1
      (by omega)
    simp only [Nat.zero_add, List.drop_zero] at key
    rw [literal_replace_into, find_iter_empty_pat text, List.range_eq_range',
      List.range'_succ]
    simp only [replace_loop, List.length_nil, Nat.add_zero, Nat.zero_add,
      Nat.sub_zero, List.take_zero, List.nil_append, List.append_nil, if_true]
    rw [key]
    simp [Nat.add_comm, List.append_assoc]

theorem regex_replace_fast_buf (ms : List (Nat × Nat))
    (buf text rep : List Nat) (all : Bool) :
    ∃ app, (regex_replace_fast ms buf text rep all).1 = buf ++ app := by
  cases ms with
  | nil => exact ⟨text, rfl⟩
  | cons m ms => exact ⟨_, fast_loop_buf text rep all (m :: ms) buf 0 0⟩

theorem regex_replace_cap_buf (caps : List ((Nat × Nat) × List Nat))
    (buf text : List Nat) (all : Bool) :
    ∃ app, (regex_replace_cap caps buf text all).1 = buf ++ app := by
  cases caps with
  | nil => exact ⟨text, rfl⟩
  | cons c cs => exact ⟨_, cap_loop_buf text all (c :: cs) buf 0 0⟩

theorem regex_replace_into_buf (re : Regex) (buf text rep : List Nat)
    (all : Bool) :
    ∃ app, (regex_replace_into re buf text rep all).1 = buf ++ app := by
  rw [regex_replace_into]
  cases no_expansion rep with
  | some r => exact regex_replace_fast_buf (re.find_all text) buf text r all
  | none =>
    exact regex_replace_cap_buf
      ((re.captures_all text).map fun c => (c.1, c.2 rep)) buf text all

/-! ## Claim C6 -/

/-- C6 (counterexample): the clause "the empty input line always yields an
empty appended output and count 0" fails for the empty literal pattern: on
the empty line with replacement `[88]` the code returns `([88], 1)`. -/
theorem empty_line_invariance_claim_false :
    literal_replace_into [] [] [] [88] false ≠ ([], 0) := by
  decide

/-- C6 (amended): for both the Literal and the Regex variants,
`replace_into` only appends to the caller's buffer; a line on which the
code's match enumeration is empty is copied through unchanged with count 0;
and the empty input line yields empty appended output and count 0 for every
pattern whose match enumeration on it is empty — in particular every
non-empty literal pattern (the empty literal pattern instead matches once,
see the counterexample). -/
theorem replace_into_append_only_and_noop (pat buf text rep : List Nat)
    (all : Bool) (re : Regex) :
    (∃ app, (literal_replace_into pat buf text rep all).1 = buf ++ app) ∧
    (∃ app, (regex_replace_into re buf text rep all).1 = buf ++ app) ∧
    (find_iter text pat = [] →
      literal_replace_into pat buf text rep all = (buf ++ text, 0)) ∧
    (re.find_all text = [] → re.captures_all text = [] →
      regex_replace_into re buf text rep all = (buf ++ text, 0)) ∧
    (pat ≠ [] → literal_replace_into pat buf [] rep all = (buf, 0)) := by
  refine ⟨?_, ?_, ?_, ?_, ?_⟩
  · exact ⟨_, replace_loop_buf pat.length text rep all (find_iter text pat)
      buf 0 0⟩
  · exact regex_replace_into_buf re buf text rep all
  · intro h
    rw [literal_replace_into, h]
    simp [replace_loop]
  · intro hf hc
    rw [regex_replace_into]
    cases hne : no_expansion rep with
    | some r => rw [hf]; rfl
    | none => rw [hc]; rfl
  · intro h
    rw [literal_replace_into, find_iter_nil pat h]
    simp [replace_loop]

/-- C6 witness: the amended theorem applied at concrete inputs — pattern
`[102, 111]` does not occur in `[97, 98]`, and the non-empty pattern `[102]`
on the empty line. -/
theorem replace_into_append_only_and_noop_check :
    literal_replace_into [102, 111] [5] [97, 98] [66] false = ([5, 97, 98], 0) ∧
    literal_replace_into [102] [7] [] [66] true = ([7], 0) :=
  ⟨(replace_into_append_only_and_noop [102, 111] [5] [97, 98] [66] false
      ⟨fun _ => [], fun _ => []⟩).2.2.1 (by decide),
   (replace_into_append_only_and_noop [102] [7] [] [66] true
      ⟨fun _ => [], fun _ => []⟩).2.2.2.2 (by decide)⟩

/-! ## Claim C7 -/

/-- C7: with `replace_all = false`, the literal `replace_into` replaces
exactly the first occurrence and copies the remainder unchanged; and on the
spec's concrete vector (`"what foo bar foo"`, pattern `"foo"`, replacement
`"FOO"`) it produces `("what FOO bar foo", 1)` with `replace_all = false`
and `("what FOO bar FOO", 2)` with `replace_all = true`. -/
theorem literal_first_vs_all :
    (∀ (pat buf text rep : List Nat) (s : Nat) (ms : List Nat),
        find_iter text pat = s :: ms →
        literal_replace_into pat buf text rep false =
          (buf ++ text.take s ++ rep ++ text.drop (s + pat.length), 1)) ∧
    literal_replace_into (strBytes "foo") [] (strBytes "what foo bar foo")
      (strBytes "FOO") false = (strBytes "what FOO bar foo", 1) ∧
    literal_replace_into (strBytes "foo") [] (strBytes "what foo bar foo")
      (strBytes "FOO") true = (strBytes "what FOO bar FOO", 2) := by
  refine ⟨?_, by decide, by decide⟩
  intro pat buf text rep s ms h
  rw [literal_replace_into, h]
  simp [replace_loop, List.append_assoc]

/-- C7 witness: first-occurrence replacement at a concrete input — pattern
`[98]` first occurs at offset 1 of `[97, 98, 99]`. -/
theorem literal_first_vs_all_check :
    literal_replace_into [98] [] [97, 98, 99] [88] false = ([97, 88, 99], 1) :=
  literal_first_vs_all.1 [98] [] [97, 98, 99] [88] 1 [] (by decide)

/-! ## Escape-decoder lemmas -/

theorem memchr_eq_none (bytes : List Nat) (h : ∀ b ∈ bytes, b ≠ 92) :
    memchr 92 bytes = none := by
  rw [memchr, List.findIdx?_eq_none_iff]
  intro x hx
  simpa using h x hx

theorem memchr_append (p rest : List Nat) (h : ∀ b ∈ p, b ≠ 92) :
    memchr 92 (p ++ rest) = (memchr 92 rest).map (· + p.length) := by
  have hp : List.findIdx? (fun b => b == 92) p = none := memchr_eq_none p h
  simp only [memchr, List.findIdx?_append, hp, Option.none_or]

theorem unescape_go_of_memchr_none (bytes : List Nat) (base : Nat)
    (h : memchr 92 bytes = none) : unescape_go bytes base = .ok bytes := by
  rw [unescape_go]
  split
  · rfl
  · rename_i i hm
    rw [h] at hm
    cases hm

/-- Bytes without a backslash are copied through unchanged. -/
theorem unescape_go_no_backslash (bytes : List Nat) (base : Nat)
    (h : ∀ b ∈ bytes, b ≠ 92) : unescape_go bytes base = .ok bytes :=
  unescape_go_of_memchr_none bytes base (memchr_eq_none bytes h)

/-- Splitting the decoder at a backslash-free prefix: the prefix is copied
through and the scan continues after it, with the error offsets shifted by
the prefix's length. -/
theorem unescape_go_append (p rest : List Nat) (base : Nat)
    (hp : ∀ b ∈ p, b ≠ 92) :
    unescape_go (p ++ rest) base =
      (unescape_go rest (base + p.length)).map (p ++ ·) := by
  cases hm : memchr 92 rest with
  | none =>
    rw [unescape_go_of_memchr_none rest _ hm,
      unescape_go_of_memchr_none (p ++ rest) base
        (by rw [memchr_append p rest hp, hm]; rfl)]
    rfl
  | some i =>
    have hml : memchr 92 (p ++ rest) = some (p.length + i) := by
      rw [memchr_append p rest hp, hm]
      simp [Nat.add_comm]
    conv_lhs => rw [unescape_go]
    conv_rhs => rw [unescape_go]
    rw [hml, hm]
    simp only []
    have hget2 : (p ++ rest).get? (p.length + i + 1) = rest.get? (i + 1) := by
      rw [List.get?_append_right (by omega)]
      congr 1
      omega
    rw [hget2]
    cases hg : rest.get? (i + 1) with
    | none =>
      simp only [Except.map]
      congr 1
      simp [Nat.add_assoc]
    | some esc =>
      have hdrop2 : (p ++ rest).drop (p.length + i + 2) = rest.drop (i + 2) := by
        rw [show p.length + i + 2 = p.length + (i + 2) from by omega,
          List.drop_append]
      rw [hdrop2]
      simp only []
      rcases hd : dispatch_escape esc (rest.drop (i + 2)) with e | ⟨push, extra⟩
      · simp [Except.map, Nat.add_assoc]
      · simp only []
        have hdrop3 : (p ++ rest).drop (p.length + i + 2 + extra) =
            rest.drop (i + 2 + extra) := by
          rw [show p.length + i + 2 + extra = p.length + (i + 2 + extra)
            from by omega, List.drop_append]
        have htake3 : (p ++ rest).take (p.length + i) = p ++ rest.take i :=
          List.take_append i
        rw [hdrop3, htake3,
          show base + (p.length + i) + 2 + extra =
            base + p.length + i + 2 + extra from by omega]
        rcases hrec : unescape_go (rest.drop (i + 2 + extra))
            (base + p.length + i + 2 + extra) with e | t
        · simp [Except.map]
        · simp [Except.map, List.append_assoc]

theorem nibble_hex (b : Nat) (h : isHexDigitB b = true) :
    nibble b = .ok (nibbleVal b) := by
  rw [nibble, nibbleVal]
  simp only [isHexDigitB, Bool.or_eq_true, Bool.and_eq_true, decide_eq_true_eq]
    at h
  split_ifs <;> first | rfl | omega

theorem nibbleVal_lt (b : Nat) : nibbleVal b < 16 := by
  rw [nibbleVal]
  split_ifs <;> omega

/-- Packing a nibble below an accumulator: exact arithmetic meaning of the
`(val << 4) | nibble` step. -/
theorem pack16 (a d : Nat) (hd : d < 16) : (a <<< 4) ||| d = 16 * a + d := by
  apply Nat.eq_of_testBit_eq
  intro i
  rw [Nat.testBit_lor]
  rcases Nat.lt_or_ge i 4 with h4 | h4
  · have h1 : (a <<< 4).testBit i = false := by
      rw [Nat.testBit_shiftLeft]
      simp [show ¬(4 ≤ i) from by omega]
    have hmod : (16 * a + d) % 2 ^ 4 = d := by
      have : (16 * a + d) % 16 = d := by
        rw [Nat.mul_add_mod]
        exact Nat.mod_eq_of_lt hd
      simpa using this
    have h2 : (16 * a + d).testBit i = d.testBit i := by
      have hh := Nat.testBit_mod_two_pow (16 * a + d) 4 i
      rw [hmod] at hh
      rw [hh]
      simp [h4]
    rw [h1, h2]
    simp
  · have h16 : (16 : Nat) ≤ 2 ^ i := by
      calc (16 : Nat) = 2 ^ 4 := by norm_num
        _ ≤ 2 ^ i := Nat.pow_le_pow_right (by norm_num) h4
    have h1 : d.testBit i = false :=
      Nat.testBit_lt_two_pow (lt_of_lt_of_le hd h16)
    have h2 : (a <<< 4).testBit i = a.testBit (i - 4) := by
      rw [Nat.testBit_shiftLeft]
      simp [h4]
    have hdiv : (16 * a + d) / 2 ^ 4 = a := by
      have : (16 * a + d) / 16 = a := by
        rw [Nat.mul_add_div (by norm_num), Nat.div_eq_of_lt hd]
        omega
      simpa using this
    have h3 : (16 * a + d).testBit i = a.testBit (i - 4) := by
      conv_lhs => rw [show i = 4 + (i - 4) from by omega]
      rw [← Nat.testBit_shiftRight, Nat.shiftRight_eq_div_pow, hdiv]
    rw [h1, h2, h3]
    simp

theorem foldlM_nibble (ds : List Nat) (h : ∀ d ∈ ds, isHexDigitB d = true) :
    ∀ a : Nat,
      ds.foldlM (fun v d => do
        let n ← nibble d
        pure ((v <<< 4) ||| n)) a =
        Except.ok (ds.foldl (fun v d => (v <<< 4) ||| nibbleVal d) a) := by
  induction ds with
  | nil => intro a; rfl
  | cons d ds ih =>
    intro a
    rw [List.foldlM_cons, List.foldl_cons,
      nibble_hex d (h d (List.mem_cons_self d ds))]
    simpa using ih (fun x hx => h x (List.mem_cons_of_mem d hx))
      ((a <<< 4) ||| nibbleVal d)

theorem foldl_hex_horner (L : List Nat) (h : ∀ d ∈ L, d < 16) :
    ∀ a : Nat, L.foldl (fun v d => (v <<< 4) ||| d) a =
      a * 16 ^ L.length + Nat.ofDigits 16 L.reverse := by
  induction L with
  | nil => intro a; simp [Nat.ofDigits]
  | cons d L ih =>
    intro a
    rw [List.foldl_cons, ih (fun x hx => h x (List.mem_cons_of_mem d hx)),
      pack16 a d (h d (List.mem_cons_self d L)), List.reverse_cons,
      Nat.ofDigits_append]
    simp [Nat.ofDigits, Nat.pow_succ]
    ring

theorem findIdx_brace :
    ∀ (L : List Nat) (n : Nat) (rest : List Nat), L.length < n →
      (∀ b ∈ L, b ≠ 125) →
      ((L ++ 125 :: rest).take n).findIdx? (fun b => b == 125) =
        some L.length := by
  intro L
  induction L with
  | nil =>
    intro n rest hn _
    cases n with
    | zero => omega
    | succ m => simp [List.take_succ_cons, List.findIdx?_cons]
  | cons b L ih =>
    intro n rest hn hb
    cases n with
    | zero => omega
    | succ m =>
      have hbne : (b == 125) = false := by
        simpa using hb b (List.mem_cons_self b L)
      rw [List.cons_append, List.take_succ_cons, List.findIdx?_cons, hbne]
      simp only [Bool.false_eq_true, if_false, List.findIdx?_start_succ]
      rw [ih m rest (by simpa using hn)
        (fun x hx => hb x (List.mem_cons_of_mem b hx))]
      simp

/-- Evaluation of `parse_unicode` on a well-formed digit sequence: braces, one to six hex
digits, anything after the closing brace. -/
theorem parse_unicode_digits (ds s : List Nat) (h1 : 1 ≤ ds.length)
    (h6 : ds.length ≤ 6) (hx : ∀ d ∈ ds, isHexDigitB d = true) :
    parse_unicode (123 :: (ds ++ 125 :: s)) =
      .ok (valOf ds, ds.length + 2) := by
  have hfind : ((123 :: (ds ++ 125 :: s)).take 8).findIdx? (fun b => b == 125)
      = some (ds.length + 1) := by
    have hno : ∀ b ∈ 123 :: ds, b ≠ 125 := by
      intro b hb
      rcases List.mem_cons.mp hb with rfl | hb
      · omega
      · have := hx b hb
        simp only [isHexDigitB, Bool.or_eq_true, Bool.and_eq_true,
          decide_eq_true_eq] at this
        omega
    have := findIdx_brace (123 :: ds) 8 s (by simp; omega) hno
    simpa using this
  have hlen : ¬ ((123 :: (ds ++ 125 :: s)).length < 3) := by
    simp only [List.length_cons, List.length_append]
    omega
  have htake : (123 :: (ds ++ 125 :: s)).take (ds.length + 1) = 123 :: ds := by
    rw [List.take_succ_cons, List.take_left]
  have hget : (123 :: (ds ++ 125 :: s)).get? 0 = some 123 := rfl
  rw [parse_unicode]
  rw [if_neg hlen]
  rw [hget]
  rw [if_neg (show ¬ (some (123 : Nat) ≠ some 123) by simp)]
  rw [hfind]
  simp only [pure_bind]
  rw [htake]
  simp only [List.drop_succ_cons, List.drop_zero]
  rw [foldlM_nibble ds hx 0]
  simp only [bind, Except.bind, pure, Except.pure]
  rfl

theorem hexByte_hex : ∀ d : Nat, d < 16 → isHexDigitB (hexByte d) = true := by
  decide

theorem nibbleVal_hexByte : ∀ d : Nat, d < 16 → nibbleVal (hexByte d) = d := by
  decide

/-- The canonical hex digits of a value in the Unicode range: one to six
digits, all hex, accumulating back to the value. -/
theorem hexBytesOf_spec (v : Nat) (hv : v ≤ 0x10FFFF) :
    1 ≤ (hexBytesOf v).length ∧ (hexBytesOf v).length ≤ 6 ∧
    (∀ d ∈ hexBytesOf v, isHexDigitB d = true) ∧ valOf (hexBytesOf v) = v := by
  by_cases h0 : v = 0
  · subst h0
    exact ⟨by decide, by decide, by decide, by decide⟩
  · have hd16 : ∀ d ∈ Nat.digits 16 v, d < 16 := fun d hd =>
      Nat.digits_lt_base (by norm_num) hd
    have hlen6 : (Nat.digits 16 v).length ≤ 6 := by
      by_contra hgt
      push_neg at hgt
      have h1 := Nat.base_pow_length_digits_le 16 v (by norm_num) h0
      have h2 : (16 : Nat) ^ 7 ≤ 16 ^ (Nat.digits 16 v).length :=
        Nat.pow_le_pow_right (by norm_num) hgt
      have h3 : (16 : Nat) ^ 7 = 268435456 := by norm_num
      omega
    rw [hexBytesOf, if_neg h0]
    refine ⟨?_, ?_, ?_, ?_⟩
    · simpa using List.length_pos.mpr (Nat.digits_ne_nil_iff_ne_zero.mpr h0)
    · simpa using hlen6
    · intro d hd
      simp only [List.mem_map, List.mem_reverse] at hd
      obtain ⟨d0, hd0, rfl⟩ := hd
      exact hexByte_hex d0 (hd16 d0 hd0)
    · rw [valOf, List.foldl_map]
      rw [List.foldl_ext _ (fun v d => (v <<< 4) ||| d) 0
        (fun a b hb => by
          rw [nibbleVal_hexByte b (hd16 b (List.mem_reverse.mp hb))])]
      rw [foldl_hex_horner _ (fun d hd => hd16 d (List.mem_reverse.mp hd)) 0]
      simp [Nat.ofDigits_digits]

/-- The decoder on a template `p \u{ds} s` whose only backslash is the
Unicode escape's: the prefix and suffix copy through, and the escape decodes
to the UTF-8 encoding of the accumulated value exactly when that value is a
Unicode scalar, and to `InvalidUnicodeCodepoint` at the backslash's offset
otherwise. -/
theorem unescape_unicode_template (p s ds : List Nat)
    (hp : ∀ b ∈ p, b ≠ 92) (hs : ∀ b ∈ s, b ≠ 92)
    (h1 : 1 ≤ ds.length) (h6 : ds.length ≤ 6)
    (hx : ∀ d ∈ ds, isHexDigitB d = true) :
    unescape_bytes (p ++ (92 :: 117 :: 123 :: ds ++ 125 :: s)) =
      if isUnicodeScalar (valOf ds) then
        .ok (p ++ (encodeUTF8 (valOf ds) ++ s))
      else .error ⟨p.length, .InvalidUnicodeCodepoint (valOf ds)⟩ := by
  have hcore : unescape_go (92 :: 117 :: 123 :: ds ++ 125 :: s) p.length =
      if isUnicodeScalar (valOf ds) then
        .ok (encodeUTF8 (valOf ds) ++ s)
      else .error ⟨p.length, .InvalidUnicodeCodepoint (valOf ds)⟩ := by
    rw [unescape_go]
    have hm : memchr 92 (92 :: 117 :: 123 :: ds ++ 125 :: s) = some 0 := by
      simp [memchr, List.findIdx?_cons]
    rw [hm]
    simp only []
    rw [show (92 :: 117 :: 123 :: ds ++ 125 :: s).get? (0 + 1) = some 117
      from rfl]
    simp only []
    have hdrop : (92 :: 117 :: 123 :: ds ++ 125 :: s).drop (0 + 2) =
        123 :: ds ++ 125 :: s := rfl
    rw [hdrop]
    rw [dispatch_escape]
    norm_num
    rw [parse_unicode_digits ds s h1 h6 hx]
    simp only []
    cases hscalar : isUnicodeScalar (valOf ds) with
    | false => simp
    | true =>
      simp only [if_true]
      have hdrop2 : (92 :: 117 :: 123 :: (ds ++ 125 :: s)).drop
          (2 + (ds.length + 2)) = s := by
        rw [show 2 + (ds.length + 2) = ds.length + 1 + 1 + 1 + 1 from by omega]
        rw [List.drop_succ_cons, List.drop_succ_cons, List.drop_succ_cons]
        rw [List.drop_append 1]
        rfl
      rw [hdrop2, unescape_go_no_backslash s _ hs]
      simp [Except.map]
  rw [unescape_bytes, unescape_go_append p _ 0 hp]
  rw [show (0 : Nat) + p.length = p.length from by omega]
  rw [hcore]
  cases isUnicodeScalar (valOf ds) <;> simp [Except.map]

/-! ## Claim C4 -/

/-- C4: evaluation of the decoder at the failing input.  A template
containing `\u{}` with at least one byte after the escape decodes `\u{}` as
U+0000 and succeeds (the `len < 3` guard only catches `\u{}` at end of
input, and an empty digit list accumulates to 0), contradicting the
documented "at least one hex digit" requirement. -/
theorem unescape_empty_unicode_eval :
    unescape_bytes [92, 117, 123, 125, 97] = .ok [0, 97] ∧
    unescape_bytes [92, 117, 123, 125] = .error ⟨0, .TruncatedUnicode⟩ ∧
    parse_unicode [123, 125, 97] = .ok (0, 2) := by
  refine ⟨?_, ?_, ?_⟩
  · rw [unescape_bytes, unescape_go]
    simp [memchr, dispatch_escape, parse_unicode, nibble, isUnicodeScalar,
      encodeUTF8, pure, Except.pure, bind, Except.bind, throw, throwThe,
      MonadExceptOf.throw, Except.map, List.foldlM,
      unescape_go_no_backslash [97] 4 (by decide)]
  · rw [unescape_bytes, unescape_go]
    simp [memchr, dispatch_escape, parse_unicode, nibble, isUnicodeScalar,
      encodeUTF8, pure, Except.pure, bind, Except.bind, throw, throwThe,
      MonadExceptOf.throw, Except.map, List.foldlM]
  · simp [parse_unicode, nibble, pure, Except.pure, bind, Except.bind,
      throw, throwThe, MonadExceptOf.throw, List.foldlM]

/-! ## Claim C5 -/

/-- C5: for a template whose Unicode escape carries 1–6 valid hex digits and
a closing brace (and no other backslash), the decoder appends the UTF-8
encoding of the accumulated value when it is a Unicode scalar and errors
with `InvalidUnicodeCodepoint` exactly when it is a surrogate or exceeds
`0x10FFFF`; `\u{D800}` errors even though its digits parse cleanly
(`parse_unicode` succeeds on them); and every non-surrogate scalar from 0
through `0x10FFFF` succeeds via its canonical digits. -/
theorem unicode_escape_spec :
    (∀ (p s ds : List Nat), (∀ b ∈ p, b ≠ 92) → (∀ b ∈ s, b ≠ 92) →
      1 ≤ ds.length → ds.length ≤ 6 → (∀ d ∈ ds, isHexDigitB d = true) →
      unescape_bytes (p ++ (92 :: 117 :: 123 :: ds ++ 125 :: s)) =
        if isUnicodeScalar (valOf ds) then
          .ok (p ++ (encodeUTF8 (valOf ds) ++ s))
        else .error ⟨p.length, .InvalidUnicodeCodepoint (valOf ds)⟩) ∧
    (parse_unicode [123, 68, 56, 48, 48, 125] = .ok (0xD800, 6) ∧
      unescape_bytes [92, 117, 123, 68, 56, 48, 48, 125] =
        .error ⟨0, .InvalidUnicodeCodepoint 0xD800⟩) ∧
    (∀ v : Nat, v ≤ 0x10FFFF → isUnicodeScalar v = true →
      unescape_bytes (92 :: 117 :: 123 :: hexBytesOf v ++ [125]) =
        .ok (encodeUTF8 v)) := by
  refine ⟨unescape_unicode_template, ⟨?_, ?_⟩, ?_⟩
  · simp [parse_unicode, nibble, pure, Except.pure, bind, Except.bind,
      throw, throwThe, MonadExceptOf.throw, List.foldlM]
  · rw [unescape_bytes, unescape_go]
    simp [memchr, dispatch_escape, parse_unicode, nibble, isUnicodeScalar,
      pure, Except.pure, bind, Except.bind, throw, throwThe,
      MonadExceptOf.throw, Except.map, List.foldlM]
  · intro v hv hsc
    obtain ⟨hl1, hl6, hhex, hval⟩ := hexBytesOf_spec v hv
    have := unescape_unicode_template [] [] (hexBytesOf v)
      (by simp) (by simp) hl1 hl6 hhex
    rw [hval] at this
    simpa [hsc] using this

/-- C5 witness: the template `a\u{41}b` decodes to `a`, `A` (U+0041), `b`. -/
theorem unicode_escape_spec_check :
    unescape_bytes [97, 92, 117, 123, 52, 49, 125, 98] = .ok [97, 65, 98] := by
  have := unicode_escape_spec.1 [97] [98] [52, 49]
    (by decide) (by decide) (by decide) (by decide) (by decide)
  simpa [valOf, nibbleVal, isUnicodeScalar, encodeUTF8] using this

/-! ## Claim C9 -/

theorem fast_loop_eq_cap_loop (text rep : List Nat) (all : Bool) :
    ∀ (ms : List (Nat × Nat)) (buf : List Nat) (last count : Nat),
      fast_loop text rep all ms buf last count =
        cap_loop text all (ms.map fun m => (m, rep)) buf last count := by
  intro ms
  induction ms with
  | nil => intro buf last count; rfl
  | cons m ms ih =>
    intro buf last count
    obtain ⟨s, e⟩ := m
    simp only [List.map_cons, fast_loop, cap_loop]
    cases all with
    | false => rfl
    | true => simp only [if_true]; exact ih _ _ _

theorem regex_fast_eq_cap_mapped (ms : List (Nat × Nat))
    (buf text rep : List Nat) (all : Bool) :
    regex_replace_fast ms buf text rep all =
      regex_replace_cap (ms.map fun m => (m, rep)) buf text all := by
  cases ms with
  | nil => rfl
  | cons m ms =>
    simp only [List.map_cons, regex_replace_fast, regex_replace_cap]
    rw [fast_loop_eq_cap_loop]
    rfl

/-- C9: when the replacement template contains no `$` marker, the
no-expansion fast path of the regex `replace_into` produces exactly the
bytes and match count that the capture-expansion path would produce.  The
two bridging facts about the external regex engine are hypotheses: the
spans of `captures_iter` coincide with `find_iter`
(`cap.get(0)` of the n-th capture is the n-th match), and
`Replacer::replace_append` of a `$`-free template appends the template
literally. -/
theorem regex_fast_path_refines_captures (re : Regex)
    (buf text rep : List Nat) (all : Bool)
    (hrep : rep.contains 36 = false)
    (hspan : (re.captures_all text).map Prod.fst = re.find_all text)
    (hexp : ∀ c ∈ re.captures_all text, c.2 rep = rep) :
    regex_replace_into re buf text rep all =
      regex_replace_cap ((re.captures_all text).map fun c => (c.1, c.2 rep))
        buf text all := by
  have hne : no_expansion rep = some rep := by
    unfold no_expansion
    rw [hrep]
    rfl
  rw [regex_replace_into, hne]
  have hmaps : ((re.captures_all text).map fun c => (c.1, c.2 rep)) =
      (re.find_all text).map fun m => (m, rep) := by
    rw [← hspan, List.map_map]
    exact List.map_congr_left fun c hc => by
      simp [Function.comp, hexp c hc]
  rw [hmaps]
  exact regex_fast_eq_cap_mapped (re.find_all text) buf text rep all

/-- C9 witness: the equivalence applied to a concrete one-match regex whose
capture expands the `$`-free template `[88]` literally. -/
theorem regex_fast_path_refines_captures_check :
    regex_replace_into
        ⟨fun _ => [(0, 1)], fun _ => [((0, 1), fun r => r)]⟩
        [9] [97, 98] [88] true =
      regex_replace_cap [((0, 1), [88])] [9] [97, 98] true :=
  regex_fast_path_refines_captures
    ⟨fun _ => [(0, 1)], fun _ => [((0, 1), fun r => r)]⟩
    [9] [97, 98] [88] true (by decide) rfl
    (by intro c hc; simp only [List.mem_singleton] at hc; subst hc; rfl)

/-! ## Claim C10 -/

/-- C10: every constructor (`Replacer::regex`, `Replacer::literal`,
`Replacer::new`) starts with `replace_all = false` and
`print_only_matches = false` and stores the given pattern and replacement;
each builder method sets only its own flag and leaves the pattern, the
replacement and the other flag unchanged. -/
theorem replacer_constructors_and_builders {P : Type} (p : P) (re : Regex)
    (pat rep : List Nat) (r : Replacer P) (b : Bool) :
    Replacer.literal pat rep =
      ⟨pat, rep, false, false⟩ ∧
    Replacer.regex (.ok re) rep =
      .ok ⟨re, rep, false, false⟩ ∧
    Replacer.new p rep =
      ⟨p, rep, false, false⟩ ∧
    r.set_replace_all b =
      ⟨r.pattern, r.replacement, b, r.print_only_matches⟩ ∧
    r.set_print_only_matches b =
      ⟨r.pattern, r.replacement, r.replace_all, b⟩ :=
  ⟨rfl, rfl, rfl, rfl, rfl⟩

/-! ## Claim C8 -/

theorem read_until_nl_snd_lt (input : List Nat) (h : input ≠ []) :
    (read_until_nl input).2.length < input.length := by
  have hlen : input.length ≠ 0 := fun hl => h (List.length_eq_zero.mp hl)
  cases h' : input.findIdx? (fun b => b == 10) with
  | none => simp only [read_until_nl, h']; simpa using Nat.pos_of_ne_zero hlen
  | some i => simp only [read_until_nl, h', List.length_drop]; omega

theorem lineUnits_eq (input : List Nat) (h : input ≠ []) :
    lineUnits input =
      (read_until_nl input).1 :: lineUnits (read_until_nl input).2 := by
  rw [lineUnits]
  simp [h]

theorem replace_stream_eq {P : Type} [Pattern P] (r : Replacer P)
    (input : List Nat) (h : input ≠ []) :
    replace_stream r input =
      (let res := Pattern.replace_into r.pattern [] (read_until_nl input).1
          r.replacement r.replace_all
       if !r.print_only_matches || res.2 != 0 then res.1 else []) ++
        replace_stream r (read_until_nl input).2 := by
  rw [replace_stream]
  simp [h]

theorem lineUnits_flatten_aux :
    ∀ (n : Nat) (input : List Nat), input.length ≤ n →
      (lineUnits input).flatten = input := by
  intro n
  induction n with
  | zero =>
    intro input h
    have : input = [] := List.length_eq_zero.mp (by omega)
    simp [this, lineUnits]
  | succ n ih =>
    intro input h
    by_cases hi : input = []
    · simp [hi, lineUnits]
    · rw [lineUnits_eq input hi, List.flatten_cons,
        ih (read_until_nl input).2
          (by have := read_until_nl_snd_lt input hi; omega)]
      exact read_until_nl_fst_append_snd input

theorem replace_stream_flatten_aux {P : Type} [Pattern P] (r : Replacer P) :
    ∀ (n : Nat) (input : List Nat), input.length ≤ n →
      replace_stream r input =
        ((lineUnits input).map fun l =>
          let res := Pattern.replace_into r.pattern [] l r.replacement
              r.replace_all
          if !r.print_only_matches || res.2 != 0 then res.1 else []).flatten := by
  intro n
  induction n with
  | zero =>
    intro input h
    have : input = [] := List.length_eq_zero.mp (by omega)
    simp [this, lineUnits, replace_stream]
  | succ n ih =>
    intro input h
    by_cases hi : input = []
    · simp [hi, lineUnits, replace_stream]
    · rw [replace_stream_eq r input hi, lineUnits_eq input hi,
        List.map_cons, List.flatten_cons,
        ih (read_until_nl input).2
          (by have := read_until_nl_snd_lt input hi; omega)]

/-- C8: `replace_stream` consumes the input as a sequence of line units
(each up to and including its newline; reads stop exactly when the stream
is exhausted, i.e. a read yields zero bytes), the units concatenate back to
the whole input in order, and the output is exactly the concatenation, in
input order, of each line's fully transformed bytes — kept when
`only_matching` is off or the line's match count is nonzero, and dropped
entirely (no placeholder bytes) otherwise. -/
theorem replace_stream_line_by_line {P : Type} [Pattern P] (r : Replacer P)
    (input : List Nat) :
    ((read_until_nl input).1 = [] ↔ input = []) ∧
    (lineUnits input).flatten = input ∧
    replace_stream r input =
      ((lineUnits input).map fun l =>
        let res := Pattern.replace_into r.pattern [] l r.replacement
            r.replace_all
        if !r.print_only_matches || res.2 != 0 then res.1 else []).flatten :=
  ⟨read_until_nl_fst_eq_nil_iff input,
   lineUnits_flatten_aux input.length input (Nat.le_refl _),
   replace_stream_flatten_aux r input.length input (Nat.le_refl _)⟩

/-! ## Claim C3 -/

/-- C3: atomicity of the in-place committer.  If any step before the atomic
rename fails (opening the input, reading its metadata, creating the
temporary file, the stream replacement, or the flush), the call errors, the
target path's content and permission bits are unchanged, and no temporary
file remains; when every step succeeds the target's content is fully
replaced by the transformed bytes and the original permission bits are
propagated onto the new file. -/
theorem inplace_atomicity (transform : List Nat → List Nat) (tempPerms : Nat)
    (e : InplaceEnv) :
    ((e.openFails || e.metaFails || e.tempFails || e.streamFails
        || e.flushFails) = true →
      (replace_one_inplace transform tempPerms e).1 =
        ⟨e.origContent, e.origPerms, false⟩ ∧
      (replace_one_inplace transform tempPerms e).2.isOk = false) ∧
    ((e.openFails || e.metaFails || e.tempFails || e.streamFails
        || e.flushFails || e.renameFails || e.permFails) = false →
      replace_one_inplace transform tempPerms e =
        (⟨transform e.origContent, e.origPerms, false⟩, .ok ())) := by
  obtain ⟨c, pm, o, m, t, st, fl, rn, pf⟩ := e
  cases o <;> cases m <;> cases t <;> cases st <;> cases fl <;> cases rn <;>
    cases pf <;> simp [replace_one_inplace, Except.isOk, Except.toBool]

/-- C3 witness: a mid-stream failure leaves the original `([1, 2]`, perms 7)
file untouched, and a fully successful run commits the transformed content
with the original permissions. -/
theorem inplace_atomicity_check :
    (replace_one_inplace (fun l => 9 :: l) 5
        ⟨[1, 2], 7, false, false, false, true, false, false, false⟩).1 =
      ⟨[1, 2], 7, false⟩ ∧
    replace_one_inplace (fun l => 9 :: l) 5
        ⟨[1, 2], 7, false, false, false, false, false, false, false⟩ =
      (⟨9 :: [1, 2], 7, false⟩, .ok ()) :=
  ⟨((inplace_atomicity (fun l => 9 :: l) 5
      ⟨[1, 2], 7, false, false, false, true, false, false, false⟩).1
      (by decide)).1,
   (inplace_atomicity (fun l => 9 :: l) 5
      ⟨[1, 2], 7, false, false, false, false, false, false, false⟩).2
      (by decide)⟩

/-! ## Claim C2 -/

/-- C2 (counterexample): a per-target failure does not always leave the
remaining targets attempted.  With two stdout-mode targets whose first
fails to open, and with two in-place targets whose first fails mid-stream,
the run aborts after the first target: the event trace contains no
`attempt 1`. -/
theorem per_target_recovery_claim_false :
    do_replace_stdout [⟨true, false⟩, ⟨false, false⟩] =
      ([.attempt 0], .error (.openError 0)) ∧
    do_replace_inplace (fun l => l) 0
        [⟨[], 0, false, false, false, true, false, false, false⟩,
         ⟨[], 0, false, false, false, false, false, false, false⟩] =
      ([.attempt 0], .error (.inplaceError 0)) ∧
    Event.attempt 1 ∉ (do_replace_stdout [⟨true, false⟩, ⟨false, false⟩]).1 ∧
    Event.attempt 1 ∉ (do_replace_inplace (fun l => l) 0
        [⟨[], 0, false, false, false, true, false, false, false⟩,
         ⟨[], 0, false, false, false, false, false, false, false⟩]).1 := by
  refine ⟨rfl, rfl, by decide, by decide⟩

theorem stdout_go_spec (fs : List StdoutFile) :
    ∀ (i : Nat) (failed : Bool), (∀ g ∈ fs, g.openFails = false) →
      (∀ j, j < fs.length →
        Event.attempt (i + j) ∈ (do_replace_stdout_go i failed fs).1) ∧
      ((do_replace_stdout_go i failed fs).2 = .ok () ↔
        (failed = false ∧ ∀ g ∈ fs, g.streamFails = false)) ∧
      (∀ (j : Nat) (hj : j < fs.length),
        (fs.get ⟨j, hj⟩).streamFails = true →
        Event.report (i + j) ∈ (do_replace_stdout_go i failed fs).1) := by
  induction fs with
  | nil =>
    intro i failed _
    refine ⟨fun j hj => absurd hj (by simp), ?_,
      fun j hj => absurd hj (by simp)⟩
    cases failed <;> simp [do_replace_stdout_go]
  | cons f fs ih =>
    intro i failed h
    have hf : f.openFails = false := h f (List.mem_cons_self f fs)
    have hrest := fun g hg => h g (List.mem_cons_of_mem f hg)
    cases hst : f.streamFails with
    | true =>
      have := ih (i + 1) true hrest
      refine ⟨?_, ?_, ?_⟩
      · intro j hj
        cases j with
        | zero =>
          simp [do_replace_stdout_go, hf, hst]
        | succ j =>
          have hmem := this.1 j (by simpa using hj)
          simp only [do_replace_stdout_go, hf, hst]
          simp only [Bool.false_eq_true, if_false, if_true]
          rw [show i + (j + 1) = i + 1 + j from by omega]
          simp [hmem]
      · simp only [do_replace_stdout_go, hf, hst]
        simp only [Bool.false_eq_true, if_false, if_true]
        rw [this.2.1]
        simp [hst]
      · intro j hj hjf
        cases j with
        | zero =>
          simp [do_replace_stdout_go, hf, hst]
        | succ j =>
          have hmem := this.2.2 j (by simpa using hj) (by simpa using hjf)
          simp only [do_replace_stdout_go, hf, hst]
          simp only [Bool.false_eq_true, if_false, if_true]
          rw [show i + (j + 1) = i + 1 + j from by omega]
          simp [hmem]
    | false =>
      have := ih (i + 1) failed hrest
      refine ⟨?_, ?_, ?_⟩
      · intro j hj
        cases j with
        | zero =>
          simp [do_replace_stdout_go, hf, hst]
        | succ j =>
          have hmem := this.1 j (by simpa using hj)
          simp only [do_replace_stdout_go, hf, hst]
          simp only [Bool.false_eq_true, if_false]
          rw [show i + (j + 1) = i + 1 + j from by omega]
          simp [hmem]
      · simp only [do_replace_stdout_go, hf, hst]
        simp only [Bool.false_eq_true, if_false]
        rw [this.2.1]
        simp [hst]
      · intro j hj hjf
        cases j with
        | zero =>
          have hx : f.streamFails = true := hjf
          rw [hst] at hx
          cases hx
        | succ j =>
          have hmem := this.2.2 j (by simpa using hj) (by simpa using hjf)
          simp only [do_replace_stdout_go, hf, hst]
          simp only [Bool.false_eq_true, if_false]
          rw [show i + (j + 1) = i + 1 + j from by omega]
          simp [hmem]

theorem inplace_go_spec (transform : List Nat → List Nat) (tempPerms : Nat)
    (es : List InplaceEnv) :
    ∀ i : Nat,
      (∀ x ∈ es, (replace_one_inplace transform tempPerms x).2.isOk = true) →
      (∀ j, j < es.length → Event.attempt (i + j) ∈
        (do_replace_inplace_go transform tempPerms i es).1) ∧
      (do_replace_inplace_go transform tempPerms i es).2 = .ok () := by
  induction es with
  | nil =>
    intro i _
    exact ⟨fun j hj => absurd hj (by simp), rfl⟩
  | cons e es ih =>
    intro i h
    have he : (replace_one_inplace transform tempPerms e).2.isOk = true :=
      h e (List.mem_cons_self e es)
    have hook : (replace_one_inplace transform tempPerms e).2 = .ok () := by
      cases hr : (replace_one_inplace transform tempPerms e).2 with
      | error err => rw [hr] at he; simp [Except.isOk, Except.toBool] at he
      | ok u => cases u; rfl
    have := ih (i + 1) (fun x hx => h x (List.mem_cons_of_mem e hx))
    refine ⟨?_, ?_⟩
    · intro j hj
      cases j with
      | zero => simp [do_replace_inplace_go, hook]
      | succ j =>
        have hmem := this.1 j (by simpa using hj)
        simp only [do_replace_inplace_go, hook]
        rw [show i + (j + 1) = i + 1 + j from by omega]
        simp [hmem]
    · simp only [do_replace_inplace_go, hook]
      exact this.2

/-- C2 (amended): per-target recovery holds only for mid-stream errors in
stdout mode.  In stdout mode with no open failures every target is
attempted, each stream failure is reported against its target, and the run
fails overall iff some target failed; but a failure to open a target in
stdout mode aborts the run at that target (remaining targets are not
attempted), and in in-place mode any per-target failure aborts the run at
that target.  All-success in-place runs attempt every target and
succeed. -/
theorem batch_error_recovery (fs : List StdoutFile)
    (transform : List Nat → List Nat) (tempPerms : Nat) (f : StdoutFile)
    (fs' : List StdoutFile) (e : InplaceEnv) (es : List InplaceEnv) :
    ((∀ g ∈ fs, g.openFails = false) →
      (∀ j, j < fs.length →
        Event.attempt j ∈ (do_replace_stdout fs).1) ∧
      (∀ (j : Nat) (hj : j < fs.length),
        (fs.get ⟨j, hj⟩).streamFails = true →
        Event.report j ∈ (do_replace_stdout fs).1) ∧
      ((do_replace_stdout fs).2 = .ok () ↔
        ∀ g ∈ fs, g.streamFails = false)) ∧
    (f.openFails = true →
      do_replace_stdout (f :: fs') = ([.attempt 0], .error (.openError 0))) ∧
    ((replace_one_inplace transform tempPerms e).2.isOk = false →
      do_replace_inplace transform tempPerms (e :: es) =
        ([.attempt 0], .error (.inplaceError 0))) ∧
    ((∀ x ∈ es, (replace_one_inplace transform tempPerms x).2.isOk = true) →
      (∀ j, j < es.length → Event.attempt j ∈
        (do_replace_inplace transform tempPerms es).1) ∧
      (do_replace_inplace transform tempPerms es).2 = .ok ()) := by
  refine ⟨?_, ?_, ?_, ?_⟩
  · intro h
    have := stdout_go_spec fs 0 false h
    refine ⟨fun j hj => by simpa using this.1 j hj,
      fun j hj hjf => by simpa using this.2.2 j hj hjf, ?_⟩
    rw [do_replace_stdout, this.2.1]
    simp
  · intro hf
    simp [do_replace_stdout, do_replace_stdout_go, hf]
  · intro he
    have : ∃ err, (replace_one_inplace transform tempPerms e).2 = .error err := by
      cases hr : (replace_one_inplace transform tempPerms e).2 with
      | error err => exact ⟨err, rfl⟩
      | ok u => rw [hr] at he; simp [Except.isOk, Except.toBool] at he
    obtain ⟨err, herr⟩ := this
    simp [do_replace_inplace, do_replace_inplace_go, herr]
  · intro h
    have := inplace_go_spec transform tempPerms es 0 h
    exact ⟨fun j hj => by simpa using this.1 j hj, this.2⟩

/-- C2 witness: the amended behaviors at concrete targets — two stdout
targets with a mid-stream failure on the first (both attempted, the failure
reported against target 0), an open failure aborting, and an in-place
mid-stream failure aborting. -/
theorem batch_error_recovery_check :
    (Event.attempt 0 ∈ (do_replace_stdout [⟨false, true⟩, ⟨false, false⟩]).1 ∧
      Event.attempt 1 ∈ (do_replace_stdout [⟨false, true⟩, ⟨false, false⟩]).1 ∧
      Event.report 0 ∈ (do_replace_stdout [⟨false, true⟩, ⟨false, false⟩]).1) ∧
    do_replace_stdout [⟨true, false⟩] = ([.attempt 0], .error (.openError 0)) ∧
    do_replace_inplace (fun l => l) 3
        [⟨[4], 1, false, false, false, true, false, false, false⟩] =
      ([.attempt 0], .error (.inplaceError 0)) :=
  ⟨⟨((batch_error_recovery [⟨false, true⟩, ⟨false, false⟩] (fun l => l) 3
        ⟨true, false⟩ [] ⟨[4], 1, false, false, false, true, false, false,
          false⟩ []).1 (by decide)).1 0 (by decide),
    ((batch_error_recovery [⟨false, true⟩, ⟨false, false⟩] (fun l => l) 3
        ⟨true, false⟩ [] ⟨[4], 1, false, false, false, true, false, false,
          false⟩ []).1 (by decide)).1 1 (by decide),
    ((batch_error_recovery [⟨false, true⟩, ⟨false, false⟩] (fun l => l) 3
        ⟨true, false⟩ [] ⟨[4], 1, false, false, false, true, false, false,
          false⟩ []).1 (by decide)).2.1 0 (by decide) (by decide)⟩,
   (batch_error_recovery [⟨false, true⟩, ⟨false, false⟩] (fun l => l) 3
      ⟨true, false⟩ [] ⟨[4], 1, false, false, false, true, false, false,
        false⟩ []).2.1 rfl,
   (batch_error_recovery [⟨false, true⟩, ⟨false, false⟩] (fun l => l) 3
      ⟨true, false⟩ [] ⟨[4], 1, false, false, false, true, false, false,
        false⟩ []).2.2.1 (by decide)⟩

end Rp
